import Mathlib

/-!
Verification of the reflection analysis engine of this repository
(libredex/ReflectionAnalysis.h): the abstract value lattice over
AbstractObject, the per-instruction transfer semantics, the query facade,
and the worklist fixed-point driver.

Interned symbol identities (DexType and DexString pointers in the source)
are pointer-comparable opaque handles; we model them as natural numbers.
A null pointer is modelled by Option.none.
-/

abbrev DexType := Nat

abbrev DexString := Nat

/-- Kinds of abstract objects tracked by the analysis, from the
AbstractObjectKind enum of the source. -/
inductive AbstractObjectKind
  | OBJECT
  | STRING
  | CLASS
  | FIELD
  | METHOD
deriving DecidableEq

export AbstractObjectKind (OBJECT STRING CLASS FIELD METHOD)

/-- Provenance of a CLASS-kind abstract object, from the ClassObjectSource
enum of the source. Per the source comments, NON_REFLECTION covers
non-reflecting operations such as param loading and get field, while
REFLECTION covers reflection operations such as const-class or
Class.forName(). -/
inductive ClassObjectSource
  | NON_REFLECTION
  | REFLECTION
deriving DecidableEq

export ClassObjectSource (NON_REFLECTION REFLECTION)

/-- The lattice value of the analysis, from struct AbstractObject of the
source. The dex_type and dex_string pointers may be null, hence Option;
potential_dex_types is an unordered set of type identities. -/
structure AbstractObject where
  obj_kind : AbstractObjectKind
  dex_type : Option DexType
  dex_string : Option DexString
  potential_dex_types : Finset DexType
deriving DecidableEq

/-- The constructor AbstractObject(DexString* s) of the source: builds a
STRING-kind value holding the literal. -/
def mkAbstractObjectS (s : Option DexString) : AbstractObject :=
  ⟨STRING, none, s, ∅⟩

/-- The constructor AbstractObject(AbstractObjectKind k, DexType* t) of the
source. It contains always_assert(k == OBJECT || k == CLASS); a failed
assertion is modelled by none. -/
def mkAbstractObjectKT (k : AbstractObjectKind) (t : Option DexType) :
    Option AbstractObject :=
  if k = OBJECT ∨ k = CLASS then some ⟨k, t, none, ∅⟩ else none

/-- The constructor AbstractObject(k, t, potential_dex_types) of the source,
with always_assert(k == OBJECT || k == CLASS). -/
def mkAbstractObjectKTP (k : AbstractObjectKind) (t : Option DexType)
    (p : Finset DexType) : Option AbstractObject :=
  if k = OBJECT ∨ k = CLASS then some ⟨k, t, none, p⟩ else none

/-- The constructor AbstractObject(k, t, s) of the source, with
always_assert(k == FIELD || k == METHOD). -/
def mkAbstractObjectKTS (k : AbstractObjectKind) (t : Option DexType)
    (s : Option DexString) : Option AbstractObject :=
  if k = FIELD ∨ k = METHOD then some ⟨k, t, s, ∅⟩ else none

/-- The constructor AbstractObject(k, t, s, potential_dex_types) of the
source, with always_assert(k == FIELD || k == METHOD). -/
def mkAbstractObjectKTSP (k : AbstractObjectKind) (t : Option DexType)
    (s : Option DexString) (p : Finset DexType) : Option AbstractObject :=
  if k = FIELD ∨ k = METHOD then some ⟨k, t, s, p⟩ else none

/-- The member add_potential_dex_type of the source: inserts the given type
into the potential_dex_types set. The C++ member mutates in place; the
shallow embedding returns the updated value. -/
def add_potential_dex_type (a : AbstractObject) (t : DexType) :
    AbstractObject :=
  { a with potential_dex_types := insert t a.potential_dex_types }

/-- Structural equality of AbstractObject, from operator== / equals of the
source (declared there, body not in src). Modelled from the spec: equality
of kind, type, name, and candidate_types as an unordered set. -/
def equalsAO (a b : AbstractObject) : Bool :=
  decide (a = b)

/-- The partial order AbstractObject::leq (declared in the source, body not
in src). Modelled from the spec: values of different kind are incomparable;
for equal kind, a leq b holds when the types agree or b has the
unconstrained wildcard type, the names agree, and the candidate_types of a
are a subset of those of b. -/
def leqAO (a b : AbstractObject) : Bool :=
  decide (a.obj_kind = b.obj_kind) &&
    (decide (a.dex_type = b.dex_type) || decide (b.dex_type = none)) &&
    decide (a.dex_string = b.dex_string) &&
    decide (a.potential_dex_types ⊆ b.potential_dex_types)

/-- The AbstractValueKind of the sparta framework: the three-level state an
abstract value can be in after an operation. -/
inductive AbstractValueKind
  | Bottom
  | Value
  | Top
deriving DecidableEq

/-- Collects an optional dex type into a set. -/
def optType : Option DexType → Finset DexType
  | none => ∅
  | some t => {t}

/-- The join AbstractObject::join_with (declared in the source, body not in
src). Modelled from the spec: if kind and type/name agree the value is
unchanged up to the union of candidate_types; if the kinds differ, or the
kinds agree but type or name differ for FIELD, METHOD or STRING, the join
escalates to the Top of the surrounding domain; for OBJECT or CLASS values
of equal kind but different type, the join keeps the kind, drops the type
to the unconstrained marker, and accumulates both operand types and both
candidate_types sets into the candidate_types of the result. The C++
member mutates its left operand and returns an AbstractValueKind; the
shallow embedding returns the pair. -/
def join_with (a b : AbstractObject) : AbstractValueKind × AbstractObject :=
  if a.obj_kind = b.obj_kind then
    match a.obj_kind with
    | OBJECT | CLASS =>
        if a.dex_type = b.dex_type then
          (AbstractValueKind.Value,
           { a with potential_dex_types :=
               a.potential_dex_types ∪ b.potential_dex_types })
        else
          (AbstractValueKind.Value,
           { a with
             dex_type := none
             potential_dex_types :=
               (a.potential_dex_types ∪ b.potential_dex_types) ∪
                 (optType a.dex_type ∪ optType b.dex_type) })
    | FIELD | METHOD =>
        if a.dex_type = b.dex_type ∧ a.dex_string = b.dex_string then
          (AbstractValueKind.Value,
           { a with potential_dex_types :=
               a.potential_dex_types ∪ b.potential_dex_types })
        else (AbstractValueKind.Top, a)
    | STRING =>
        if a.dex_type = b.dex_type ∧ a.dex_string = b.dex_string then
          (AbstractValueKind.Value,
           { a with potential_dex_types :=
               a.potential_dex_types ∪ b.potential_dex_types })
        else (AbstractValueKind.Top, a)
  else (AbstractValueKind.Top, a)

/-- The meet AbstractObject::meet_with (declared in the source, body not in
src). Modelled from the spec: the dual of the join, intersecting
information; two incompatible values meet to the Bottom of the surrounding
domain. -/
def meet_with (a b : AbstractObject) : AbstractValueKind × AbstractObject :=
  if a.obj_kind = b.obj_kind then
    match a.obj_kind with
    | OBJECT | CLASS =>
        if a.dex_type = b.dex_type then
          (AbstractValueKind.Value,
           { a with potential_dex_types :=
               a.potential_dex_types ∩ b.potential_dex_types })
        else if a.dex_type = none then
          (AbstractValueKind.Value,
           { b with potential_dex_types :=
               a.potential_dex_types ∩ b.potential_dex_types })
        else if b.dex_type = none then
          (AbstractValueKind.Value,
           { a with potential_dex_types :=
               a.potential_dex_types ∩ b.potential_dex_types })
        else (AbstractValueKind.Bottom, a)
    | FIELD | METHOD =>
        if a.dex_type = b.dex_type ∧ a.dex_string = b.dex_string then
          (AbstractValueKind.Value, a)
        else (AbstractValueKind.Bottom, a)
    | STRING =>
        if a.dex_type = b.dex_type ∧ a.dex_string = b.dex_string then
          (AbstractValueKind.Value, a)
        else (AbstractValueKind.Bottom, a)
  else (AbstractValueKind.Bottom, a)

/-- The widening AbstractObject::widen_with, whose body in the source is
exactly a call to join_with. -/
def widen_with (a b : AbstractObject) : AbstractValueKind × AbstractObject :=
  join_with a b

/-- The narrowing AbstractObject::narrow_with, whose body in the source is
exactly a call to meet_with. -/
def narrow_with (a b : AbstractObject) : AbstractValueKind × AbstractObject :=
  meet_with a b

/-!
The intraprocedural analyzer. The impl::Analyzer class is only forward
declared in the header; the per-instruction transfer function and the state
bookkeeping are modelled from the spec, with the CLASS provenance
classification taken from the ClassObjectSource comments in the source:
const-class and Class.forName() are REFLECTION, param loading and get
field are NON_REFLECTION.
-/

/-- Instructions relevant to the analysis. Modelled from the spec: the
per-instruction transfer catalog lists literal and identity producers,
recognized reflective calls, data movement and opaque writes; each form
carries its destination register and operands. -/
inductive Insn
  | constString (dst : Nat) (s : DexString)
  | constClass (dst : Nat) (t : DexType)
  | moveReg (dst src : Nat)
  | newInstance (dst : Nat) (t : DexType)
  | forNameKnown (dst : Nat) (t : DexType)
  | igetClassObj (dst : Nat) (t : Option DexType)
  | unknownWrite (dst : Nat)
deriving DecidableEq

/-- The destination register written by an instruction. -/
def Insn.dst : Insn → Nat
  | .constString d _ => d
  | .constClass d _ => d
  | .moveReg d _ => d
  | .newInstance d _ => d
  | .forNameKnown d _ => d
  | .igetClassObj d _ => d
  | .unknownWrite d => d

/-- Whether the instruction overwrites register r. -/
def writesReg (i : Insn) (r : Nat) : Bool :=
  i.dst = r

/-- The abstract environment: each register holds either no information
(the Top and Bottom states of the surrounding domain, which the query
facade both report as absent) or a precise AbstractObject together with the
optional CLASS provenance tag. -/
def Env := Nat → Option (AbstractObject × Option ClassObjectSource)

/-- Pointwise update of an abstract environment. -/
def updEnv (e : Env) (r : Nat)
    (v : Option (AbstractObject × Option ClassObjectSource)) : Env :=
  fun x => if x = r then v else e x

/-- The per-instruction transfer function. Modelled from the spec:
literal and identity producers build STRING, CLASS and OBJECT values;
const-class and Class.forName() produce CLASS values tagged REFLECTION and
a get-field of a java.lang.Class object produces a CLASS value tagged
NON_REFLECTION, per the ClassObjectSource comments in the source; moves
propagate the source register unchanged; unrecognized writes destroy the
knowledge of the written register. -/
def transfer (i : Insn) (e : Env) : Env :=
  match i with
  | .constString d s => updEnv e d (some (mkAbstractObjectS (some s), none))
  | .constClass d t =>
      updEnv e d (some (⟨CLASS, some t, none, ∅⟩, some REFLECTION))
  | .moveReg d s => updEnv e d (e s)
  | .newInstance d t => updEnv e d (some (⟨OBJECT, some t, none, ∅⟩, none))
  | .forNameKnown d t =>
      updEnv e d (some (⟨CLASS, some t, none, ∅⟩, some REFLECTION))
  | .igetClassObj d t =>
      updEnv e d (some (⟨CLASS, t, none, ∅⟩, some NON_REFLECTION))
  | .unknownWrite d => updEnv e d none

/-- Runs the transfer function over a straight-line instruction list. -/
def envRun (env0 : Env) (l : List Insn) : Env :=
  l.foldl (fun e i => transfer i e) env0

/-- The abstract environment immediately before the instruction at index i
of the method body: the analysis persists, for every instruction, the state
obtained by running the transfer function over the instructions that
precede it. -/
def envBefore (prog : List Insn) (env0 : Env) (i : Nat) : Env :=
  envRun env0 (prog.take i)

/-- The query ReflectionAnalysis::get_abstract_object (declared in the
source, body not in src). Modelled from the spec: returns the
AbstractObject held by the register immediately before the instruction at
index i executes, absent when the register carries no information. -/
def get_abstract_object (prog : List Insn) (env0 : Env) (r : Nat)
    (i : Nat) : Option AbstractObject :=
  (envBefore prog env0 i r).map Prod.fst

/-- The query ReflectionAnalysis::get_class_source (declared in the source,
body not in src). Modelled from the spec: returns the provenance tag when
the value held by the register immediately before the instruction at index
i is CLASS-kind with a known tag, else absent. -/
def get_class_source (prog : List Insn) (env0 : Env) (r : Nat)
    (i : Nat) : Option ClassObjectSource :=
  match envBefore prog env0 i r with
  | some (a, src) => if a.obj_kind = CLASS then src else none
  | none => none

/-- The empty initial environment: no register carries information. -/
def env0ReflModel : Env := fun _ => none

/-!
Claims about the lattice operations and the value constructors.
-/

/-- C5: widen_with coincides with join_with and narrow_with coincides with
meet_with on every pair of AbstractObjects, returning the same
AbstractValueKind and the same resulting value; there is no separate
widening or narrowing heuristic. -/
theorem widen_narrow_coincide (a b : AbstractObject) :
    widen_with a b = join_with a b ∧ narrow_with a b = meet_with a b :=
  ⟨rfl, rfl⟩

/-- C6: the constructor AbstractObject(k, t) succeeds exactly when k is
OBJECT or CLASS, and the constructor AbstractObject(k, t, s) succeeds
exactly when k is FIELD or METHOD; any other kind fails the always_assert
at construction time, so no invalid value is produced. -/
theorem ctor_assert_kinds :
    (∀ (k : AbstractObjectKind) (t : Option DexType),
      (mkAbstractObjectKT k t).isSome = true ↔ (k = OBJECT ∨ k = CLASS)) ∧
    (∀ (k : AbstractObjectKind) (t : Option DexType) (s : Option DexString),
      (mkAbstractObjectKTS k t s).isSome = true ↔ (k = FIELD ∨ k = METHOD)) := by
  constructor
  · intro k t
    by_cases h : k = OBJECT ∨ k = CLASS <;> simp [mkAbstractObjectKT, h]
  · intro k t s
    by_cases h : k = FIELD ∨ k = METHOD <;> simp [mkAbstractObjectKTS, h]

/-- Witness for C6 at a concrete input: the OBJECT-kind constructor call
succeeds. -/
theorem ctor_assert_kinds_witness :
    (mkAbstractObjectKT OBJECT (some 3)).isSome = true :=
  (ctor_assert_kinds.1 OBJECT (some 3)).mpr (Or.inl rfl)

/-- C7: leq is a partial order with respect to equals: it is reflexive, and
mutually comparable values are equal. -/
theorem leq_partial_order :
    (∀ a : AbstractObject, leqAO a a = true) ∧
    (∀ a b : AbstractObject,
      leqAO a b = true → leqAO b a = true → equalsAO a b = true) := by
  constructor
  · intro a
    simp [leqAO]
  · intro a b h1 h2
    simp only [leqAO, Bool.and_eq_true, Bool.or_eq_true, decide_eq_true_eq] at h1 h2
    obtain ⟨⟨⟨hk, ht⟩, hs⟩, hsub⟩ := h1
    obtain ⟨⟨⟨hk2, ht2⟩, hs2⟩, hsub2⟩ := h2
    have htype : a.dex_type = b.dex_type := by
      rcases ht with h | h
      · exact h
      · rcases ht2 with h2 | h2
        · exact h2.symm
        · rw [h, h2]
    have hset : a.potential_dex_types = b.potential_dex_types :=
      Finset.Subset.antisymm hsub hsub2
    simp only [equalsAO, decide_eq_true_eq]
    obtain ⟨ka, ta, sa, pa⟩ := a
    obtain ⟨kb, tb, sb, pb⟩ := b
    simp_all

/-- Witness for C7 at concrete inputs: two structurally equal values are
mutually comparable and equal. -/
theorem leq_partial_order_witness :
    equalsAO ⟨OBJECT, some 1, none, {2}⟩ ⟨OBJECT, some 1, none, {2}⟩ = true :=
  leq_partial_order.2 ⟨OBJECT, some 1, none, {2}⟩ ⟨OBJECT, some 1, none, {2}⟩
    (by decide) (by decide)

/-- C8: joining a value with itself keeps it in the Value state and leaves
it unchanged. -/
theorem join_self_idempotent (a : AbstractObject) :
    join_with a a = (AbstractValueKind.Value, a) := by
  obtain ⟨k, t, s, p⟩ := a
  cases k <;> simp [join_with, Finset.union_self]

/-- C3: joining two OBJECT-kind or CLASS-kind values of equal kind but
different type stays in the Value state, keeps the kind, drops the type to
the unconstrained marker, and accumulates both operand types and both
candidate_types sets into the candidate_types of the result, rather than
escalating to Top. -/
theorem join_same_kind_diff_type (a b : AbstractObject)
    (hk : a.obj_kind = b.obj_kind)
    (hoc : a.obj_kind = OBJECT ∨ a.obj_kind = CLASS)
    (ht : a.dex_type ≠ b.dex_type) :
    (join_with a b).1 = AbstractValueKind.Value ∧
    (join_with a b).2.obj_kind = a.obj_kind ∧
    (join_with a b).2.dex_type = none ∧
    (join_with a b).2.potential_dex_types =
      (a.potential_dex_types ∪ b.potential_dex_types) ∪
        (optType a.dex_type ∪ optType b.dex_type) ∧
    (∀ u : DexType,
      a.dex_type = some u ∨ b.dex_type = some u ∨
        u ∈ a.potential_dex_types ∨ u ∈ b.potential_dex_types →
      u ∈ (join_with a b).2.potential_dex_types) := by
  obtain ⟨k, t, s, p⟩ := a
  have hres : join_with ⟨k, t, s, p⟩ b = (AbstractValueKind.Value,
      { obj_kind := k
        dex_type := none
        dex_string := s
        potential_dex_types :=
          (p ∪ b.potential_dex_types) ∪ (optType t ∪ optType b.dex_type) }) := by
    rcases hoc with h | h <;> subst h <;> simp [join_with, hk.symm, ht]
  rw [hres]
  refine ⟨rfl, rfl, rfl, rfl, ?_⟩
  intro u hu
  simp only [Finset.mem_union]
  rcases hu with h | h | h | h
  · subst h
    right; left
    simp [optType]
  · right; right
    rw [h]
    simp [optType]
  · left; left; exact h
  · left; right; exact h

/-- Witness for C3 at concrete inputs: joining an OBJECT of type 1 with an
OBJECT of type 2 keeps the Value state with the unconstrained type. -/
theorem join_same_kind_diff_type_witness :
    (join_with ⟨OBJECT, some 1, none, {5}⟩ ⟨OBJECT, some 2, none, {6}⟩).2.dex_type =
      none :=
  (join_same_kind_diff_type ⟨OBJECT, some 1, none, {5}⟩ ⟨OBJECT, some 2, none, {6}⟩
    (by decide) (by decide) (by decide)).2.2.1

/-- C4: joining two values whose kinds differ, or whose common kind is
FIELD, METHOD or STRING while their type or name differs, escalates to the
Top of the surrounding domain. -/
theorem join_incompatible_top (a b : AbstractObject)
    (h : a.obj_kind ≠ b.obj_kind ∨
      (a.obj_kind = b.obj_kind ∧
        (a.obj_kind = FIELD ∨ a.obj_kind = METHOD ∨ a.obj_kind = STRING) ∧
        (a.dex_type ≠ b.dex_type ∨ a.dex_string ≠ b.dex_string))) :
    (join_with a b).1 = AbstractValueKind.Top := by
  rcases h with h | ⟨hk, hfms, hdiff⟩
  · simp [join_with, h]
  · obtain ⟨k, t, s, p⟩ := a
    have hne : ¬(t = b.dex_type ∧ s = b.dex_string) := by
      rcases hdiff with h | h
      · exact fun hc => h hc.1
      · exact fun hc => h hc.2
    rcases hfms with h | h | h <;> subst h <;> simp [join_with, hk, hne]

/-- Witness for C4 at concrete inputs: joining a STRING value with an
OBJECT value escalates to Top. -/
theorem join_incompatible_top_witness :
    (join_with ⟨STRING, none, some 4, ∅⟩ ⟨OBJECT, some 1, none, ∅⟩).1 =
      AbstractValueKind.Top :=
  join_incompatible_top ⟨STRING, none, some 4, ∅⟩ ⟨OBJECT, some 1, none, ∅⟩
    (by decide)

/-- C10: add_potential_dex_type adds the given type to potential_dex_types
and leaves the kind, the type, the name, and every previously present
potential dex type unchanged; the member applies to any AbstractObject
value after construction, including one returned by a query. -/
theorem add_potential_dex_type_frame (a : AbstractObject) (t : DexType) :
    (add_potential_dex_type a t).obj_kind = a.obj_kind ∧
    (add_potential_dex_type a t).dex_type = a.dex_type ∧
    (add_potential_dex_type a t).dex_string = a.dex_string ∧
    t ∈ (add_potential_dex_type a t).potential_dex_types ∧
    ∀ u ∈ a.potential_dex_types,
      u ∈ (add_potential_dex_type a t).potential_dex_types := by
  refine ⟨rfl, rfl, rfl, ?_, ?_⟩
  · simp [add_potential_dex_type]
  · intro u hu
    simp only [add_potential_dex_type]
    exact Finset.mem_insert_of_mem hu

/-- Witness for C10 at concrete inputs: the previously present type 7 is
still present after adding type 3. -/
theorem add_potential_dex_type_frame_witness :
    7 ∈ (add_potential_dex_type ⟨OBJECT, none, none, {7}⟩ 3).potential_dex_types :=
  (add_potential_dex_type_frame ⟨OBJECT, none, none, {7}⟩ 3).2.2.2.2 7 (by decide)

/-!
Claims about the query facade and the CLASS provenance classification.
-/

/-- C2: for an instruction I at position i that overwrites register r, the
query get_abstract_object returns the value held by r immediately before I
executes, namely the one obtained from the instructions preceding I alone;
in particular the answer is unchanged when I is replaced by any other
instruction, so it is never the value I itself produces. -/
theorem get_abstract_object_pre (pre post : List Insn) (I : Insn)
    (env0 : Env) (r : Nat) (h : writesReg I r = true) :
    get_abstract_object (pre ++ I :: post) env0 r pre.length =
      (envRun env0 pre r).map Prod.fst ∧
    ∀ J : Insn,
      get_abstract_object (pre ++ J :: post) env0 r pre.length =
        get_abstract_object (pre ++ I :: post) env0 r pre.length := by
  have key : ∀ K : Insn, (pre ++ K :: post).take pre.length = pre :=
    fun K => List.take_left pre (K :: post)
  constructor
  · simp [get_abstract_object, envBefore, key]
  · intro J
    simp [get_abstract_object, envBefore, key]

/-- Witness for C2 at a concrete input: the const-class at position 1
overwrites register 0, and the query at that instruction returns the STRING
value written by the preceding instruction. -/
theorem get_abstract_object_pre_witness :
    get_abstract_object [Insn.constString 0 5, Insn.constClass 0 9]
        env0ReflModel 0 1 =
      (envRun env0ReflModel [Insn.constString 0 5] 0).map Prod.fst :=
  (get_abstract_object_pre [Insn.constString 0 5] [] (Insn.constClass 0 9)
    env0ReflModel 0 (by decide)).1

/-- Counterexample to C1 as stated: the const-class instruction produces a
CLASS value whose provenance tag is REFLECTION, not NON_REFLECTION, per the
classification documented on the ClassObjectSource enum of the source. -/
theorem const_class_not_nonreflective :
    get_class_source [Insn.constClass 0 7, Insn.moveReg 1 0] env0ReflModel 0 1 =
      some REFLECTION ∧
    get_class_source [Insn.constClass 0 7, Insn.moveReg 1 0] env0ReflModel 0 1 ≠
      some NON_REFLECTION := by
  constructor
  · rfl
  · decide

/-- C1 as amended: a const-class instruction produces a CLASS value tagged
REFLECTION, while an ordinary non-reflective operation such as reading a
java.lang.Class object from a field produces a CLASS value tagged
NON_REFLECTION. -/
theorem class_source_classification (env0 : Env) (pre : List Insn)
    (d : Nat) (t : DexType) (J : Insn) (post : List Insn) :
    get_class_source (pre ++ Insn.constClass d t :: J :: post) env0 d
      (pre.length + 1) = some REFLECTION ∧
    ∀ u : Option DexType,
      get_class_source (pre ++ Insn.igetClassObj d u :: J :: post) env0 d
        (pre.length + 1) = some NON_REFLECTION := by
  have key : ∀ K : Insn, ∀ rest : List Insn,
      (pre ++ K :: rest).take (pre.length + 1) = pre ++ [K] := by
    intro K rest
    have h1 : (pre ++ K :: rest).take (pre.length + 1) =
        pre ++ (K :: rest).take 1 := List.take_append 1
    simpa using h1
  constructor
  · simp [get_class_source, envBefore, key, envRun, transfer, updEnv]
  · intro u
    simp [get_class_source, envBefore, key, envRun, transfer, updEnv]

/-!
The fixed-point driver. Modelled from the spec: states are processed with a
worklist; propagating along a control-flow edge joins the output of the
source node into the accumulated input of the target node, and the
out-edges of a target whose input changed are re-enqueued; the worklist
becoming empty means a fixed point is reached. One iteration is one
propagation along one pending edge. The lattice is abstract: any carrier
with a join, an order and a rank function that strictly increases along the
order and stays below the height bound. The transfer of a whole node,
namely the instruction-by-instruction application of the transfer function
to the node input, is an abstract function from node to state
transformer. -/

/-- State of the worklist fixed-point driver: one abstract state per graph
node, plus the list of pending control-flow edges. -/
structure WLState (L : Type) where
  env : Nat → L
  wl : List (Nat × Nat)

/-- The edges leaving node v. -/
def outEdges (v : Nat) : List (Nat × Nat) → List (Nat × Nat)
  | [] => []
  | e :: E => if e.1 = v then e :: outEdges v E else outEdges v E

/-- One driver iteration on the pending edge from u to v: join the output
of u into the input of v; if the input of v changed, re-enqueue the edges
leaving v. -/
def wlStep {L : Type} [DecidableEq L] (join : L → L → L) (f : Nat → L → L)
    (E : List (Nat × Nat)) (env : Nat → L) (u v : Nat)
    (rest : List (Nat × Nat)) : WLState L :=
  if join (env v) (f u (env u)) = env v then ⟨env, rest⟩
  else
    ⟨fun x => if x = v then join (env v) (f u (env u)) else env x,
     rest ++ outEdges v E⟩

/-- The driver loop, with an explicit iteration budget: processes pending
edges until the worklist is empty, returning the final per-node states, or
none when the budget is exhausted first. -/
def wlRun {L : Type} [DecidableEq L] (join : L → L → L) (f : Nat → L → L)
    (E : List (Nat × Nat)) : Nat → WLState L → Option (Nat → L)
  | _, ⟨env, []⟩ => some env
  | 0, ⟨_, _ :: _⟩ => none
  | n + 1, ⟨env, (u, v) :: rest⟩ =>
      wlRun join f E n (wlStep join f E env u v rest)

/-- Total remaining slack of the per-node states over a list of edges,
measured at the source node of each edge. -/
def wlPotential {L : Type} (rank : L → Nat) (H : Nat) (env : Nat → L) :
    List (Nat × Nat) → Nat
  | [] => 0
  | e :: E => (H - 1 - rank (env e.1)) + wlPotential rank H env E

/-- The termination measure of the driver: pending edges plus remaining
slack. -/
def wlMeasure {L : Type} (rank : L → Nat) (H : Nat) (E : List (Nat × Nat))
    (s : WLState L) : Nat :=
  s.wl.length + wlPotential rank H s.env E

/-- Stability of one control-flow edge: the output of the source node is
already accounted for in the input of the target node. -/
def EdgeStable {L : Type} (le : L → L → Prop) (f : Nat → L → L)
    (env : Nat → L) (e : Nat × Nat) : Prop :=
  le (f e.1 (env e.1)) (env e.2)

/-- Driver invariant: every edge not pending in the worklist is stable. -/
def WLInv {L : Type} (le : L → L → Prop) (f : Nat → L → L)
    (E : List (Nat × Nat)) (s : WLState L) : Prop :=
  ∀ e ∈ E, e ∉ s.wl → EdgeStable le f s.env e

theorem mem_outEdges {v : Nat} {e : Nat × Nat} {E : List (Nat × Nat)}
    (he : e ∈ E) (hv : e.1 = v) : e ∈ outEdges v E := by
  induction E with
  | nil => cases he
  | cons hd E ih =>
      rcases List.mem_cons.mp he with h | h
      · subst h
        simp [outEdges, hv]
      · by_cases hhd : hd.1 = v <;> simp [outEdges, hhd, ih h]

theorem wlPotential_update {L : Type} (rank : L → Nat) (H : Nat) (v : Nat)
    (nv : L) (env : Nat → L) (hlt : rank (env v) < rank nv)
    (hH : rank nv < H) (E : List (Nat × Nat)) :
    wlPotential rank H (fun x => if x = v then nv else env x) E +
      (outEdges v E).length ≤ wlPotential rank H env E := by
  induction E with
  | nil => simp [wlPotential, outEdges]
  | cons e E ih =>
      by_cases hev : e.1 = v
      · have henv : (if e.1 = v then nv else env e.1) = nv := if_pos hev
        have hout : outEdges v (e :: E) = e :: outEdges v E := by
          simp [outEdges, hev]
        have h1 : (H - 1 - rank nv) + 1 ≤ H - 1 - rank (env v) := by omega
        simp only [wlPotential, hout, List.length_cons]
        rw [henv, hev]
        omega
      · have henv : (if e.1 = v then nv else env e.1) = env e.1 := if_neg hev
        have hout : outEdges v (e :: E) = outEdges v E := by
          simp [outEdges, hev]
        simp only [wlPotential, hout, henv]
        omega

theorem wlMeasure_step {L : Type} [DecidableEq L] (le : L → L → Prop)
    (join : L → L → L) (rank : L → Nat) (H : Nat) (f : Nat → L → L)
    (E : List (Nat × Nat)) (env : Nat → L) (u v : Nat)
    (rest : List (Nat × Nat))
    (hrank : ∀ x, rank x < H)
    (hjl : ∀ a b, le a (join a b))
    (hstrict : ∀ a b, le a b → a ≠ b → rank a < rank b) :
    wlMeasure rank H E (wlStep join f E env u v rest) + 1 ≤
      wlMeasure rank H E ⟨env, (u, v) :: rest⟩ := by
  by_cases h : join (env v) (f u (env u)) = env v
  · simp only [wlStep, if_pos h, wlMeasure, List.length_cons]
    omega
  · have hle : le (env v) (join (env v) (f u (env u))) := hjl _ _
    have hne : env v ≠ join (env v) (f u (env u)) := fun hc => h hc.symm
    have hlt : rank (env v) < rank (join (env v) (f u (env u))) :=
      hstrict _ _ hle hne
    have hpot := wlPotential_update rank H v (join (env v) (f u (env u)))
      env hlt (hrank _) E
    simp only [wlStep, if_neg h, wlMeasure, List.length_append,
      List.length_cons]
    omega

theorem wlRun_terminates {L : Type} [DecidableEq L] (le : L → L → Prop)
    (join : L → L → L) (rank : L → Nat) (H : Nat) (f : Nat → L → L)
    (E : List (Nat × Nat))
    (hrank : ∀ x, rank x < H)
    (hjl : ∀ a b, le a (join a b))
    (hstrict : ∀ a b, le a b → a ≠ b → rank a < rank b) :
    ∀ (n : Nat) (s : WLState L), wlMeasure rank H E s ≤ n →
      ∃ env, wlRun join f E n s = some env := by
  intro n
  induction n with
  | zero =>
      intro s hs
      obtain ⟨env, wl⟩ := s
      cases wl with
      | nil => exact ⟨env, rfl⟩
      | cons e rest =>
          exfalso
          simp only [wlMeasure, List.length_cons] at hs
          omega
  | succ n ih =>
      intro s hs
      obtain ⟨env, wl⟩ := s
      cases wl with
      | nil => exact ⟨env, rfl⟩
      | cons e rest =>
          obtain ⟨u, v⟩ := e
          have hstep := wlMeasure_step le join rank H f E env u v rest
            hrank hjl hstrict
          have hrec : wlRun join f E (n + 1) ⟨env, (u, v) :: rest⟩ =
              wlRun join f E n (wlStep join f E env u v rest) := rfl
          rw [hrec]
          exact ih _ (by omega)

theorem wlInv_step {L : Type} [DecidableEq L] (le : L → L → Prop)
    (join : L → L → L) (f : Nat → L → L) (E : List (Nat × Nat))
    (env : Nat → L) (u v : Nat) (rest : List (Nat × Nat))
    (hjl : ∀ a b, le a (join a b))
    (hjr : ∀ a b, le b (join a b))
    (htrans : ∀ a b c, le a b → le b c → le a c)
    (hinv : WLInv le f E ⟨env, (u, v) :: rest⟩) :
    WLInv le f E (wlStep join f E env u v rest) := by
  by_cases h : join (env v) (f u (env u)) = env v
  · simp only [wlStep, if_pos h]
    intro e he hns
    by_cases heq : e = (u, v)
    · subst heq
      show le (f u (env u)) (env v)
      have hj := hjr (env v) (f u (env u))
      rwa [h] at hj
    · refine hinv e he ?_
      simp only [List.mem_cons, not_or]
      exact ⟨heq, hns⟩
  · simp only [wlStep, if_neg h]
    intro e he hns
    rw [List.mem_append] at hns
    push_neg at hns
    obtain ⟨hnr, hno⟩ := hns
    have ha : e.1 ≠ v := fun hc => hno (mem_outEdges he hc)
    by_cases heq : e = (u, v)
    · subst heq
      show le (f u (if u = v then _ else env u)) (if v = v then _ else env v)
      rw [if_neg ha, if_pos rfl]
      exact hjr _ _
    · have hstable : le (f e.1 (env e.1)) (env e.2) := by
        refine hinv e he ?_
        simp only [List.mem_cons, not_or]
        exact ⟨heq, hnr⟩
      show le (f e.1 (if e.1 = v then _ else env e.1))
        (if e.2 = v then _ else env e.2)
      rw [if_neg ha]
      by_cases hbv : e.2 = v
      · rw [if_pos hbv]
        refine htrans _ _ _ ?_ (hjl _ _)
        rwa [hbv] at hstable
      · rwa [if_neg hbv]

theorem wlRun_stable {L : Type} [DecidableEq L] (le : L → L → Prop)
    (join : L → L → L) (f : Nat → L → L) (E : List (Nat × Nat))
    (hjl : ∀ a b, le a (join a b))
    (hjr : ∀ a b, le b (join a b))
    (htrans : ∀ a b c, le a b → le b c → le a c) :
    ∀ (n : Nat) (s : WLState L) (env : Nat → L),
      wlRun join f E n s = some env → WLInv le f E s →
      ∀ e ∈ E, EdgeStable le f env e := by
  intro n
  induction n with
  | zero =>
      intro s env hrun hinv e he
      obtain ⟨env9, wl⟩ := s
      cases wl with
      | nil =>
          have henv : env9 = env := by
            simpa [wlRun] using hrun
          subst henv
          exact hinv e he (by simp)
      | cons hd rest => simp [wlRun] at hrun
  | succ n ih =>
      intro s env hrun hinv e he
      obtain ⟨env9, wl⟩ := s
      cases wl with
      | nil =>
          have henv : env9 = env := by
            simpa [wlRun] using hrun
          subst henv
          exact hinv e he (by simp)
      | cons hd rest =>
          obtain ⟨u, v⟩ := hd
          exact ih (wlStep join f E env9 u v rest) env hrun
            (wlInv_step le join f E env9 u v rest hjl hjr htrans hinv) e he

theorem wlPotential_bound {L : Type} (rank : L → Nat) (H : Nat)
    (env : Nat → L) (E : List (Nat × Nat)) :
    wlPotential rank H env E ≤ E.length * (H - 1) := by
  induction E with
  | nil => simp [wlPotential]
  | cons e E ih =>
      have hhead : H - 1 - rank (env e.1) ≤ H - 1 := Nat.sub_le _ _
      have hmul : (E.length + 1) * (H - 1) = E.length * (H - 1) + (H - 1) :=
        Nat.succ_mul _ _
      simp only [wlPotential, List.length_cons]
      omega

/-- C9: for every finite control-flow graph and every node transfer
function, the worklist fixed-point driver terminates: within a number of
edge propagations bounded by the lattice height H multiplied by the number
of graph edges it empties its worklist and returns final per-node states,
and those states are a fixed point, every graph edge being stable under a
further propagation. The lattice is any carrier with a join that is an
upper bound of its operands, a transitive order, and a rank that is below H
and strictly increases along the order, so that every strictly increasing
chain has at most H elements. -/
theorem worklist_driver_terminates (L : Type) [DecidableEq L]
    (le : L → L → Prop) (join : L → L → L) (rank : L → Nat) (H : Nat)
    (f : Nat → L → L) (E : List (Nat × Nat)) (env0 : Nat → L)
    (hrank : ∀ x, rank x < H)
    (hjl : ∀ a b, le a (join a b))
    (hjr : ∀ a b, le b (join a b))
    (htrans : ∀ a b c, le a b → le b c → le a c)
    (hstrict : ∀ a b, le a b → a ≠ b → rank a < rank b) :
    ∃ env : Nat → L,
      wlRun join f E (H * E.length) ⟨env0, E⟩ = some env ∧
      ∀ e ∈ E, le (f e.1 (env e.1)) (env e.2) := by
  have hH1 : 1 ≤ H := Nat.one_le_iff_ne_zero.mpr (by
    intro hc
    exact absurd (hrank (env0 0)) (by omega))
  have hpot := wlPotential_bound rank H env0 E
  have haux : E.length * H = E.length * (H - 1) + E.length := by
    conv_lhs => rw [show H = (H - 1) + 1 by omega]
    rw [Nat.mul_add, Nat.mul_one]
  have haux2 : H * E.length = E.length * H := Nat.mul_comm _ _
  have hmeas : wlMeasure rank H E ⟨env0, E⟩ ≤ H * E.length := by
    simp only [wlMeasure]
    omega
  obtain ⟨env, hrun⟩ := wlRun_terminates le join rank H f E hrank hjl hstrict
    (H * E.length) ⟨env0, E⟩ hmeas
  refine ⟨env, hrun, ?_⟩
  exact wlRun_stable le join f E hjl hjr htrans (H * E.length) ⟨env0, E⟩ env
    hrun (fun e he hne => absurd he hne)

/-- Witness for C9 at concrete inputs: on the two-node lattice of booleans
of height 2 with join the disjunction, the driver over the one-edge graph
succeeds within 2 times 1 iterations. -/
theorem worklist_driver_terminates_witness :
    (wlRun (fun a b => a || b) (fun _ x => x) [(0, 1)] (2 * [(0, 1)].length)
      ⟨fun _ => false, [(0, 1)]⟩).isSome = true := by
  obtain ⟨env, hrun, _⟩ := worklist_driver_terminates Bool
    (fun a b => a = true → b = true) (fun a b => a || b)
    (fun b => cond b 1 0) 2 (fun _ x => x) [(0, 1)] (fun _ => false)
    (by decide) (by decide) (by decide)
    (fun a b c hab hbc hx => hbc (hab hx)) (by decide)
  rw [hrun]
  rfl
